import Mathlib

/-
  Verification development for the lsmart storage engine
  (a single-tier, group-partitioned LSM tree written in Go).

  The Go sources are shallowly embedded below:
  * byte strings ([]byte) are `List Nat`;
  * `bytes.Compare` is `bytesCompare`, returning an `Int` in {-1, 0, 1};
  * fallible operations return `Except GoErr _`;
  * the memtable and SST reader/writer capabilities, whose sources are not
    part of this repository snapshot, are modelled from the specification
    (each such definition carries a doc comment saying so);
  * file-system side effects (WAL appends, channel sends) are made explicit:
    the WAL writer is the pair (path, records), the compaction channel is a
    queue field, and the outcome of a WAL write is an explicit oracle input.
-/

set_option maxRecDepth 10000

namespace Lsmart

/-! ## Byte strings and `bytes.Compare` -/

/-- Embedding of Go `bytes.Compare`: lexicographic comparison of byte
strings, returning -1, 0 or 1. -/
def bytesCompare : List Nat → List Nat → Int
  | [], [] => 0
  | [], _ :: _ => -1
  | _ :: _, [] => 1
  | a :: as, b :: bs => if a < b then -1 else if b < a then 1 else bytesCompare as bs

theorem bytesCompare_self (a : List Nat) : bytesCompare a a = 0 := by
  induction a with
  | nil => rfl
  | cons x xs ih => simp [bytesCompare, ih]

theorem bytesCompare_cases (a : List Nat) :
    ∀ b, bytesCompare a b = -1 ∨ bytesCompare a b = 0 ∨ bytesCompare a b = 1 := by
  induction a with
  | nil => intro b; cases b <;> simp [bytesCompare]
  | cons x xs ih =>
    intro b
    cases b with
    | nil => simp [bytesCompare]
    | cons y ys =>
      simp only [bytesCompare]
      by_cases h1 : x < y
      · simp [h1]
      · by_cases h2 : y < x
        · simp [h1, h2]
        · simpa [h1, h2] using ih ys

theorem bytesCompare_eq_zero_iff :
    ∀ a b : List Nat, bytesCompare a b = 0 ↔ a = b
  | [], [] => by simp [bytesCompare]
  | [], _ :: _ => by simp [bytesCompare]
  | _ :: _, [] => by simp [bytesCompare]
  | x :: xs, y :: ys => by
    simp only [bytesCompare]
    by_cases h1 : x < y
    · simp only [if_pos h1]
      constructor
      · intro h; exact absurd h (by decide)
      · intro h; injection h with h2 _; omega
    · by_cases h2 : y < x
      · simp only [if_neg h1, if_pos h2]
        constructor
        · intro h; exact absurd h (by decide)
        · intro h; injection h with h3 _; omega
      · have hxy : x = y := by omega
        simp only [if_neg h1, if_neg h2]
        rw [bytesCompare_eq_zero_iff xs ys]
        subst hxy
        constructor
        · intro h; rw [h]
        · intro h; simpa using h

theorem bytesCompare_swap (a : List Nat) :
    ∀ b, bytesCompare b a = - bytesCompare a b := by
  induction a with
  | nil => intro b; cases b <;> simp [bytesCompare]
  | cons x xs ih =>
    intro b
    cases b with
    | nil => simp [bytesCompare]
    | cons y ys =>
      simp only [bytesCompare]
      by_cases h1 : x < y
      · have h2 : ¬ y < x := by omega
        simp [h1, h2]
      · by_cases h2 : y < x
        · simp [h1, h2]
        · simpa [h1, h2] using ih ys

theorem bytesCompare_lt_trans {a b c : List Nat} :
    bytesCompare a b < 0 → bytesCompare b c < 0 → bytesCompare a c < 0 := by
  induction a generalizing b c with
  | nil =>
    intro h1 h2
    cases b with
    | nil => simp [bytesCompare] at h1
    | cons y ys =>
      cases c with
      | nil => simp [bytesCompare] at h2
      | cons z cs => simp [bytesCompare]
  | cons x xs ih =>
    intro h1 h2
    cases b with
    | nil => simp [bytesCompare] at h1
    | cons y ys =>
      cases c with
      | nil => simp [bytesCompare] at h2
      | cons z cs =>
        simp only [bytesCompare] at h1 h2 ⊢
        by_cases hxy : x < y
        · by_cases hyz : y < z
          · have hxz : x < z := by omega
            simp [hxz]
          · by_cases hzy : z < y
            · simp [hyz, hzy] at h2
            · have hxz : x < z := by omega
              simp [hxz]
        · by_cases hyx : y < x
          · simp [hxy, hyx] at h1
          · by_cases hyz : y < z
            · have hxz : x < z := by omega
              simp [hxz]
            · by_cases hzy : z < y
              · simp [hyz, hzy] at h2
              · have hxz : ¬ x < z := by omega
                have hzx : ¬ z < x := by omega
                have h1' : bytesCompare xs ys < 0 := by simpa [hxy, hyx] using h1
                have h2' : bytesCompare ys cs < 0 := by simpa [hyz, hzy] using h2
                simpa [hxz, hzx] using ih h1' h2'

theorem bytesCompare_le_iff (a b : List Nat) :
    bytesCompare a b ≤ 0 ↔ (bytesCompare a b < 0 ∨ a = b) := by
  rcases bytesCompare_cases a b with h | h | h
  · simp [h]
  · rw [← bytesCompare_eq_zero_iff a b]
    simp [h]
  · simp [h, ← bytesCompare_eq_zero_iff a b]

theorem bytesCompare_lt_of_lt_of_le {a b c : List Nat}
    (h1 : bytesCompare a b < 0) (h2 : bytesCompare b c ≤ 0) :
    bytesCompare a c < 0 := by
  rcases (bytesCompare_le_iff b c).mp h2 with h | h
  · exact bytesCompare_lt_trans h1 h
  · subst h; exact h1

theorem bytesCompare_lt_of_le_of_lt {a b c : List Nat}
    (h1 : bytesCompare a b ≤ 0) (h2 : bytesCompare b c < 0) :
    bytesCompare a c < 0 := by
  rcases (bytesCompare_le_iff a b).mp h1 with h | h
  · exact bytesCompare_lt_trans h h2
  · subst h; exact h2

theorem bytesCompare_le_trans {a b c : List Nat}
    (h1 : bytesCompare a b ≤ 0) (h2 : bytesCompare b c ≤ 0) :
    bytesCompare a c ≤ 0 := by
  rcases (bytesCompare_le_iff a b).mp h1 with h | h
  · exact le_of_lt (bytesCompare_lt_of_lt_of_le h h2)
  · subst h; exact h2

theorem bytesCompare_nonneg_iff (a b : List Nat) :
    0 ≤ bytesCompare a b ↔ bytesCompare b a ≤ 0 := by
  rw [bytesCompare_swap b a]
  omega

/-! ## SST filenames (src/unnamed/part_001: `sstFile`, `getGroupSeqFromSSTFile`) -/

/-- Decimal digit characters of a natural number, as Go `fmt.Sprintf("%d", n)`
prints a nonnegative integer. -/
def natChars (n : Nat) : List Char := (Nat.repr n).data

/-- Embedding of `fmt.Sprintf("g%d_%d.sst", groupID, seq)` from `Tree.sstFile`.
The engine only ever calls it with nonnegative counters, so the arguments are
naturals. -/
def sstFile (groupID seq : Nat) : List Char :=
  'g' :: natChars groupID ++ '_' :: natChars seq ++ ".sst".data

/-- Fuel-indexed helper for `removeOcc`; the fuel is an upper bound on the
input length, so the input is exhausted before the fuel is (the fuel only
serves to make the recursion structural). -/
def removeOccFuel (pat : List Char) : Nat → List Char → List Char
  | _, [] => []
  | 0, l => l
  | fuel + 1, c :: rest =>
    if pat.isPrefixOf (c :: rest) then removeOccFuel pat fuel (rest.drop (pat.length - 1))
    else c :: removeOccFuel pat fuel rest

/-- Embedding of Go `strings.Replace(s, pat, "", -1)`: delete every
(left-to-right, non-overlapping) occurrence of `pat`. -/
def removeOcc (pat : List Char) (l : List Char) : List Char :=
  removeOccFuel pat l.length l

/-- Embedding of Go `strings.Split(s, sep)` for a one-character separator. -/
def goSplitChar (sep : Char) : List Char → List (List Char)
  | [] => [[]]
  | c :: rest =>
    let r := goSplitChar sep rest
    if c = sep then [] :: r
    else
      match r with
      | [] => [[c]]
      | h :: t => (c :: h) :: t

def digitsVal (l : List Char) : Nat :=
  l.foldl (fun acc c => acc * 10 + (c.toNat - 48)) 0

/-- Helper for `goAtoi`: Go `strconv.Atoi` applied to an unsigned digit
string; syntax errors yield the value 0 (the callers in the source discard
the returned error). -/
def goAtoiCore (sign : Int) (digits : List Char) : Int :=
  if digits ≠ [] ∧ digits.all Char.isDigit then sign * (digitsVal digits : Int) else 0

/-- Embedding of Go `strconv.Atoi` as used in the source: the error return is
discarded, so an unparsable string contributes the value 0. -/
def goAtoi : List Char → Int
  | '+' :: rest => goAtoiCore 1 rest
  | '-' :: rest => goAtoiCore (-1) rest
  | s => goAtoiCore 1 s

/-- Go `int32(x)` conversion (two's-complement truncation). -/
def toInt32 (x : Int) : Int := (x + 2 ^ 31) % 2 ^ 32 - 2 ^ 31

/-- Embedding of `getGroupSeqFromSSTFile` (src/unnamed/part_001): strip every
".sst", split on '_', and run `strconv.Atoi` on the first two fields with the
errors discarded. -/
def getGroupSeqFromSSTFile (file : List Char) : Int × Int :=
  let stripped := removeOcc ".sst".data file
  let splitted := goSplitChar '_' stripped
  (goAtoi (splitted.getD 0 []), toInt32 (goAtoi (splitted.getD 1 [])))

/-! ## Separator rule (src/util/string.go) -/

/-- Embedding of `util.GetSeparatorBetween` (the Go version copies `b` into a
fresh slice, which is value-identical). -/
def GetSeparatorBetween (a b : List Nat) : List Nat :=
  if a = [] then b else a

/-- Claim C1 (code bug): the filename round-trip fails.  `sstFile 1 2`
produces "g1_2.sst", but `getGroupSeqFromSSTFile` runs `strconv.Atoi` on the
field "g1" without stripping the 'g' prefix; the parse error is discarded and
the group id comes back 0 instead of 1 (the sequence number 2 survives). -/
theorem sstFilename_roundtrip_fails_on_groupID :
    getGroupSeqFromSSTFile (sstFile 1 2) = (0, 2) ∧
      (getGroupSeqFromSSTFile (sstFile 1 2)).1 ≠ 1 := by
  decide

theorem separator_defs_test : GetSeparatorBetween [] [0] = [0] := by decide

/-- Claim C9 (counterexample): with `a = []` and `b = [0]` we have `a < b`,
yet the separator returned is `b` itself, so the claimed strict bound
`x < b` fails. -/
theorem separator_strict_bound_fails :
    bytesCompare [] [0] < 0 ∧
      GetSeparatorBetween [] [0] = [0] ∧
      ¬ bytesCompare (GetSeparatorBetween [] [0]) [0] < 0 := by
  refine ⟨by decide, by decide, ?_⟩
  decide

/-- Claim C9 (amended): for `a < b`, the separator is `b` when `a` is empty
and `a` itself otherwise; it always satisfies `a ≤ x ≤ b`, and the strict
upper bound `x < b` holds whenever `a` is nonempty (it fails for empty `a`,
where `x = b`). -/
theorem separator_between_spec (a b : List Nat) (h : bytesCompare a b < 0) :
    (a = [] → GetSeparatorBetween a b = b) ∧
      (a ≠ [] →
        GetSeparatorBetween a b = a ∧
          bytesCompare a (GetSeparatorBetween a b) ≤ 0 ∧
          bytesCompare (GetSeparatorBetween a b) b < 0) ∧
      bytesCompare a (GetSeparatorBetween a b) ≤ 0 ∧
      bytesCompare (GetSeparatorBetween a b) b ≤ 0 := by
  by_cases ha : a = []
  · have hsep : GetSeparatorBetween a b = b := by simp [GetSeparatorBetween, ha]
    refine ⟨fun _ => hsep, fun hne => absurd ha hne, ?_, ?_⟩
    · rw [hsep]; exact le_of_lt h
    · rw [hsep]; rw [bytesCompare_self]
  · have hsep : GetSeparatorBetween a b = a := by simp [GetSeparatorBetween, ha]
    refine ⟨fun h0 => absurd h0 ha, fun _ => ?_, ?_, ?_⟩
    · refine ⟨hsep, ?_, ?_⟩
      · rw [hsep, bytesCompare_self]
      · rw [hsep]; exact h
    · rw [hsep, bytesCompare_self]
    · rw [hsep]; exact le_of_lt h

/-- Claim C9 witness: the amended statement instantiated at `a = [1]`,
`b = [2]`. -/
theorem separator_between_spec_witness :
    GetSeparatorBetween [1] [2] = [1] ∧ bytesCompare (GetSeparatorBetween [1] [2]) [2] < 0 := by
  have h := separator_between_spec [1] [2] (by decide)
  exact ⟨(h.2.1 (by decide)).1, (h.2.1 (by decide)).2.2⟩

/-! ## Errors, key/value pairs -/

/-- A Go `error` value; the engine only ever tests errors for non-nilness
and hands them through, so the message is opaque. -/
structure GoErr where
  msg : List Char
deriving DecidableEq, Repr

/-- A key/value pair (`KV` in the Go source). -/
structure KV where
  Key : List Nat
  Value : List Nat
deriving DecidableEq, Repr

instance {ε α : Type} [DecidableEq ε] [DecidableEq α] : DecidableEq (Except ε α) := fun x y =>
  match x, y with
  | .error a, .error b =>
    if h : a = b then .isTrue (by rw [h]) else .isFalse (fun hc => h (Except.error.inj hc))
  | .error _, .ok _ => .isFalse (fun hc => Except.noConfusion hc)
  | .ok _, .error _ => .isFalse (fun hc => Except.noConfusion hc)
  | .ok a, .ok b =>
    if h : a = b then .isTrue (by rw [h]) else .isFalse (fun hc => h (Except.ok.inj hc))

/-! ## Memtable model -/

/-- Modelled from the spec: the memtable capability (the `memtable` package,
default skiplist) is not part of this repository snapshot.  Per §3 it is "a
mutable sorted mapping from key to value, plus a monotonic size accounting
(sum of encoded key+value bytes)": `Put` replaces the value of an existing
key, `All` returns the entries sorted ascending by key, `Size` is the
running byte count. -/
structure MemTable where
  entries : List KV
  sz : Nat
deriving DecidableEq, Repr

def emptyMem : MemTable := ⟨[], 0⟩

/-- Sorted-insert with replacement, the `Put` of the ordered-table
capability. -/
def memInsert (k v : List Nat) : List KV → List KV
  | [] => [⟨k, v⟩]
  | e :: es =>
    if bytesCompare k e.Key < 0 then ⟨k, v⟩ :: e :: es
    else if bytesCompare k e.Key = 0 then ⟨k, v⟩ :: es
    else e :: memInsert k v es

def memPut (m : MemTable) (k v : List Nat) : MemTable :=
  ⟨memInsert k v m.entries, m.sz + k.length + v.length⟩

def memGet (m : MemTable) (k : List Nat) : Option (List Nat) :=
  (m.entries.find? (fun e => e.Key == k)).map KV.Value

def memAll (m : MemTable) : List KV := m.entries

def memSize (m : MemTable) : Nat := m.sz

/-- The entries of a memtable are strictly ascending by key. -/
def EntriesSorted (l : List KV) : Prop :=
  l.Pairwise (fun a b => bytesCompare a.Key b.Key < 0)

theorem mem_memInsert {k v : List Nat} {y : KV} :
    ∀ {l : List KV}, y ∈ memInsert k v l → y = ⟨k, v⟩ ∨ y ∈ l := by
  intro l
  induction l with
  | nil => intro h; simpa [memInsert] using h
  | cons e es ih =>
    intro h
    simp only [memInsert] at h
    by_cases h1 : bytesCompare k e.Key < 0
    · simp only [if_pos h1, List.mem_cons] at h
      rcases h with h | h | h
      · exact Or.inl h
      · exact Or.inr (by simp [h])
      · exact Or.inr (by simp [h])
    · by_cases h2 : bytesCompare k e.Key = 0
      · simp only [if_neg h1, if_pos h2, List.mem_cons] at h
        rcases h with h | h
        · exact Or.inl h
        · exact Or.inr (by simp [h])
      · simp only [if_neg h1, if_neg h2, List.mem_cons] at h
        rcases h with h | h
        · exact Or.inr (by simp [h])
        · rcases ih h with h3 | h3
          · exact Or.inl h3
          · exact Or.inr (by simp [h3])

theorem memInsert_sorted {k v : List Nat} :
    ∀ {l : List KV}, EntriesSorted l → EntriesSorted (memInsert k v l) := by
  intro l
  induction l with
  | nil => intro _; simp [memInsert, EntriesSorted]
  | cons e es ih =>
    intro h
    rw [EntriesSorted, List.pairwise_cons] at h
    obtain ⟨he, hes⟩ := h
    simp only [memInsert]
    by_cases h1 : bytesCompare k e.Key < 0
    · simp only [if_pos h1]
      rw [EntriesSorted, List.pairwise_cons]
      refine ⟨?_, List.pairwise_cons.mpr ⟨he, hes⟩⟩
      intro b hb
      rcases List.mem_cons.mp hb with hb | hb
      · subst hb; exact h1
      · exact bytesCompare_lt_trans h1 (he b hb)
    · by_cases h2 : bytesCompare k e.Key = 0
      · simp only [if_neg h1, if_pos h2]
        have hk : k = e.Key := (bytesCompare_eq_zero_iff k e.Key).mp h2
        rw [EntriesSorted, List.pairwise_cons]
        refine ⟨?_, hes⟩
        intro b hb
        rw [show (⟨k, v⟩ : KV).Key = k from rfl, hk]
        exact he b hb
      · simp only [if_neg h1, if_neg h2]
        have hgt : bytesCompare e.Key k < 0 := by
          have := bytesCompare_swap k e.Key
          rcases bytesCompare_cases k e.Key with h3 | h3 | h3 <;> omega
        rw [EntriesSorted, List.pairwise_cons]
        refine ⟨?_, ih hes⟩
        intro b hb
        rcases mem_memInsert hb with hb | hb
        · subst hb; exact hgt
        · exact he b hb

theorem find?_cons_eq {α : Type} (p : α → Bool) (a : α) (l : List α) :
    (a :: l).find? p = if p a then some a else l.find? p := by
  cases h : p a <;> simp [List.find?, h]

theorem memGet_memPut_self (m : MemTable) (k v : List Nat) :
    memGet (memPut m k v) k = some v := by
  show ((memInsert k v m.entries).find? (fun e => e.Key == k)).map KV.Value = some v
  induction m.entries with
  | nil => simp [memInsert, List.find?]
  | cons e es ih =>
    simp only [memInsert]
    by_cases h1 : bytesCompare k e.Key < 0
    · simp [if_pos h1, find?_cons_eq]
    · by_cases h2 : bytesCompare k e.Key = 0
      · simp [if_neg h1, if_pos h2, find?_cons_eq]
      · have hne : (e.Key == k) = false := by
          rw [beq_eq_false_iff_ne]
          intro hc
          exact h2 ((bytesCompare_eq_zero_iff k e.Key).mpr hc.symm)
        simp only [if_neg h1, if_neg h2]
        rw [find?_cons_eq, hne]
        simpa using ih

theorem memGet_memPut_other (m : MemTable) (k v k' : List Nat) (hne : k' ≠ k) :
    memGet (memPut m k v) k' = memGet m k' := by
  show ((memInsert k v m.entries).find? (fun e => e.Key == k')).map KV.Value
      = (m.entries.find? (fun e => e.Key == k')).map KV.Value
  have hkk : ((⟨k, v⟩ : KV).Key == k') = false := by
    rw [beq_eq_false_iff_ne]; exact fun hc => hne hc.symm
  induction m.entries with
  | nil =>
    simp only [memInsert]
    rw [find?_cons_eq, hkk]
    simp [List.find?]
  | cons e es ih =>
    simp only [memInsert]
    by_cases h1 : bytesCompare k e.Key < 0
    · simp only [if_pos h1]
      rw [find?_cons_eq, hkk]
      simp
    · by_cases h2 : bytesCompare k e.Key = 0
      · have hk : k = e.Key := (bytesCompare_eq_zero_iff k e.Key).mp h2
        have hek : (e.Key == k') = false := by
          rw [beq_eq_false_iff_ne]; intro hc; exact hne (hc ▸ hk.symm ▸ rfl)
        simp only [if_neg h1, if_pos h2]
        rw [find?_cons_eq, hkk, find?_cons_eq, hek]
        simp
      · simp only [if_neg h1, if_neg h2]
        rw [find?_cons_eq, find?_cons_eq]
        cases he : (e.Key == k') with
        | true => simp
        | false => simpa using ih

/-- Feed a list of pairs into a memtable in order (left to right). -/
def putAll (m : MemTable) (kvs : List KV) : MemTable :=
  kvs.foldl (fun acc kv => memPut acc kv.Key kv.Value) m

/-- The value of the LAST pair carrying key `k` in `kvs` (last write wins). -/
def lastAssoc (kvs : List KV) (k : List Nat) : Option (List Nat) :=
  (kvs.reverse.find? (fun e => e.Key == k)).map KV.Value

theorem find?_append_eq {α : Type} (p : α → Bool) :
    ∀ l1 l2 : List α, (l1 ++ l2).find? p =
      match l1.find? p with
      | some x => some x
      | none => l2.find? p := by
  intro l1 l2
  induction l1 with
  | nil => simp
  | cons a l ih =>
    by_cases h : p a = true
    · rw [List.cons_append, List.find?_cons_of_pos _ h, List.find?_cons_of_pos _ h]
    · rw [List.cons_append, List.find?_cons_of_neg _ (by simpa using h),
        List.find?_cons_of_neg _ (by simpa using h)]
      exact ih

theorem lastAssoc_cons (kv : KV) (kvs : List KV) (k : List Nat) :
    lastAssoc (kv :: kvs) k =
      match lastAssoc kvs k with
      | some v => some v
      | none => if kv.Key = k then some kv.Value else none := by
  simp only [lastAssoc, List.reverse_cons]
  rw [find?_append_eq]
  cases h : kvs.reverse.find? (fun e => e.Key == k) with
  | none =>
    simp only [h, Option.map_none]
    by_cases hk : kv.Key = k
    · rw [List.find?_cons_of_pos _ (by simp [hk])]
      simp [hk]
    · rw [List.find?_cons_of_neg _ (by simp [hk])]
      simp [List.find?, hk]
  | some x => simp [h]

theorem memGet_putAll (kvs : List KV) :
    ∀ (m : MemTable) (k : List Nat),
      memGet (putAll m kvs) k =
        match lastAssoc kvs k with
        | some v => some v
        | none => memGet m k := by
  induction kvs with
  | nil => intro m k; simp [putAll, lastAssoc, List.find?]
  | cons kv rest ih =>
    intro m k
    have hstep : putAll m (kv :: rest) = putAll (memPut m kv.Key kv.Value) rest := rfl
    rw [hstep, ih, lastAssoc_cons]
    cases h : lastAssoc rest k with
    | some v => rfl
    | none =>
      by_cases hk : kv.Key = k
      · subst hk
        simp [memGet_memPut_self]
      · rw [memGet_memPut_other _ _ _ _ (fun hc => hk hc.symm)]
        simp [hk]

theorem putAll_sorted (kvs : List KV) :
    ∀ (m : MemTable), EntriesSorted m.entries → EntriesSorted (putAll m kvs).entries := by
  induction kvs with
  | nil => intro m h; exact h
  | cons kv rest ih =>
    intro m h
    exact ih (memPut m kv.Key kv.Value) (memInsert_sorted h)

theorem find?_entries_of_mem {k v : List Nat} :
    ∀ {l : List KV}, EntriesSorted l → (⟨k, v⟩ : KV) ∈ l →
      l.find? (fun e => e.Key == k) = some ⟨k, v⟩ := by
  intro l
  induction l with
  | nil => intro _ hmem; simp at hmem
  | cons e es ih =>
    intro h hmem
    rw [EntriesSorted, List.pairwise_cons] at h
    obtain ⟨he, hes⟩ := h
    rcases List.mem_cons.mp hmem with heq | htail
    · rw [find?_cons_eq]
      have : (e.Key == k) = true := by simp [← heq]
      rw [this]
      simp [← heq]
    · have hne : (e.Key == k) = false := by
        rw [beq_eq_false_iff_ne]
        intro hc
        have := he _ htail
        rw [hc] at this
        simp [bytesCompare_self] at this
      rw [find?_cons_eq, hne]
      simpa using ih hes htail

theorem mem_entries_iff_memGet {m : MemTable} {k v : List Nat}
    (h : EntriesSorted m.entries) :
    (⟨k, v⟩ : KV) ∈ m.entries ↔ memGet m k = some v := by
  constructor
  · intro hmem
    show (m.entries.find? (fun e => e.Key == k)).map KV.Value = some v
    rw [find?_entries_of_mem h hmem]
    rfl
  · intro hget
    simp only [memGet, Option.map_eq_some'] at hget
    obtain ⟨e, hfind, hval⟩ := hget
    have hmem := List.mem_of_find?_eq_some hfind
    have hpred := List.find?_some hfind
    have hkey : e.Key = k := by simpa using hpred
    have heq : e = ⟨k, v⟩ := by
      cases e
      simp_all
    rw [← heq]
    exact hmem

/-! ## Segment handle (Node, src/unnamed/part_000) -/

/-- An index entry (`Index` in the Go source): the separator key together
with the offset and size of the data block it covers. -/
structure Index where
  Key : List Nat
  PrevBlockOffset : Nat
  PrevBlockSize : Nat
deriving DecidableEq, Repr

def dIdx : Index := ⟨[], 0, 0⟩

/-- Modelled from the spec (§4.2): the `SSTReader` source is not part of this
repository snapshot.  An opened reader is modelled by its observable
behaviour: `ReadBlock(offset, size)` yields raw block bytes (or an `Io`
error), `ReadBlockData(bytes)` decodes a block into pairs (or a `Corrupt`
error), and `ReadData` yields the full in-order pair stream.  The two maps
are finite tables; offsets and blocks absent from them fail with an error,
matching the spec's "corruption (bad sizes, out-of-range offsets, ...) fails
with an Io/Corrupt error". -/
structure SSTReader where
  blocks : List ((Nat × Nat) × Except GoErr (List Nat))
  blockData : List (List Nat × Except GoErr (List KV))
  data : Except GoErr (List KV)
deriving DecidableEq

def SSTReader.ReadBlock (r : SSTReader) (off sz : Nat) : Except GoErr (List Nat) :=
  match r.blocks.find? (fun p => p.1 == (off, sz)) with
  | some p => p.2
  | none => .error ⟨"lsmart: block read out of range".data⟩

def SSTReader.ReadBlockData (r : SSTReader) (b : List Nat) : Except GoErr (List KV) :=
  match r.blockData.find? (fun p => p.1 == b) with
  | some p => p.2
  | none => .error ⟨"lsmart: corrupt block".data⟩

def SSTReader.ReadData (r : SSTReader) : Except GoErr (List KV) := r.data

/-- The `Node` struct of the Go source.  The `conf` pointer is not stored;
the only configuration a node consults is the filter capability, which is
passed to `nodeGet` explicitly. -/
structure Node where
  file : List Char
  groupID : Nat
  seq : Nat
  size : Nat
  blockToFilter : List (Nat × List Nat)
  index : List Index
  startKey : List Nat
  endKey : List Nat
  sstReader : SSTReader
deriving DecidableEq

/-- Embedding of `NewNode`: `startKey`/`endKey` are seeded from the first and
last index entries (the Go code would panic on an empty index; `getD` with a
default stands in for that unreachable case). -/
def NewNode (file : List Char) (groupID seq size : Nat)
    (blockToFilter : List (Nat × List Nat)) (index : List Index)
    (sstReader : SSTReader) : Node :=
  { file := file, groupID := groupID, seq := seq, size := size,
    blockToFilter := blockToFilter, index := index, sstReader := sstReader,
    startKey := (index.getD 0 dIdx).Key,
    endKey := (index.getD (index.length - 1) dIdx).Key }

/-- Go map access `m[k]` with the zero value `nil` for missing keys. -/
def lookupD (m : List (Nat × List Nat)) (k : Nat) : List Nat :=
  match m.find? (fun p => p.1 == k) with
  | some p => p.2
  | none => []

/-- Fuel-indexed body of `binarySearchIndex`; the fuel is an upper bound on
`e - s` (every recursive call shrinks the interval), so the fuel never runs
out on the calls the wrapper makes — it only serves to make the recursion
structural. -/
def binarySearchFuel (idx : List Index) (key : List Nat) :
    Nat → Nat → Nat → Index × Bool
  | 0, s, _ =>
    (idx.getD s dIdx, decide (0 ≤ bytesCompare (idx.getD s dIdx).Key key))
  | fuel + 1, s, e =>
    if e ≤ s then
      (idx.getD s dIdx, decide (0 ≤ bytesCompare (idx.getD s dIdx).Key key))
    else
      let mid := s + (e - s) / 2
      if bytesCompare (idx.getD mid dIdx).Key key < 0 then
        binarySearchFuel idx key fuel (mid + 1) e
      else
        binarySearchFuel idx key fuel s mid

/-- Embedding of `Node.binarySearchIndex` (src/unnamed/part_000 129-140):
recursive halving with base case `start == end` returning
`(index[start], index[start].Key >= key)`. -/
def binarySearchIndex (idx : List Index) (key : List Nat) (s e : Nat) : Index × Bool :=
  binarySearchFuel idx key (e - s) s e

/-- The position of the first index entry in `[s, e]` whose stored key is
`>= key`; this is the specification-side notion that the binary search is
proved to compute. -/
def firstGE (idx : List Index) (key : List Nat) (s e : Nat) : Option Nat :=
  (List.range' s (e + 1 - s)).find? (fun j => decide (0 ≤ bytesCompare (idx.getD j dIdx).Key key))

/-- The linear scan of a decoded block (the final loop of `Node.Get`). -/
def scanKVs : List KV → List Nat → Option (List Nat)
  | [], _ => none
  | kv :: rest, key => if kv.Key = key then some kv.Value else scanKVs rest key

/-- Embedding of `Node.Get` (src/unnamed/part_000 43-80): range check, index
binary search, filter consultation, block read + decode, linear scan. -/
def nodeGet (filter : List Nat → List Nat → Bool) (n : Node) (key : List Nat) :
    Except GoErr (Option (List Nat)) :=
  if bytesCompare key n.startKey < 0 ∨ 0 < bytesCompare key n.endKey then .ok none
  else
    let r := binarySearchIndex n.index key 0 (n.index.length - 1)
    if r.2 = false then .ok none
    else
      let bitmap := lookupD n.blockToFilter r.1.PrevBlockOffset
      if filter bitmap key = false then .ok none
      else
        match n.sstReader.ReadBlock r.1.PrevBlockOffset r.1.PrevBlockSize with
        | .error err => .error err
        | .ok block =>
          match n.sstReader.ReadBlockData block with
          | .error err => .error err
          | .ok kvs => .ok (scanKVs kvs key)

theorem range'_split (n : Nat) :
    ∀ s m : Nat, List.range' s (m + n) = List.range' s m ++ List.range' (s + m) n := by
  intro s m
  induction m generalizing s with
  | zero => simp
  | succ m ih =>
    have h1 : m + 1 + n = (m + n) + 1 := by omega
    rw [h1, List.range'_succ, List.range'_succ, ih (s + 1)]
    simp only [List.cons_append]
    have h2 : s + 1 + m = s + (m + 1) := by omega
    rw [h2]

/-- Specification-side description of the binary search's result: the first
`>=`-entry with flag `true` when one exists, else the entry at the right end
of the interval with flag `false`. -/
def bsearchSpec (idx : List Index) (_key : List Nat) (e : Nat) : Option Nat → Index × Bool
  | some j => (idx.getD j dIdx, true)
  | none => (idx.getD e dIdx, false)

theorem bsearchSpec_base (idx : List Index) (key : List Nat) (s : Nat) :
    bsearchSpec idx key s (firstGE idx key s s) =
      (idx.getD s dIdx, decide (0 ≤ bytesCompare (idx.getD s dIdx).Key key)) := by
  have h1 : s + 1 - s = 1 := by omega
  simp only [firstGE, h1]
  have h2 : List.range' s 1 = [s] := rfl
  rw [h2, find?_cons_eq]
  by_cases hp : 0 ≤ bytesCompare (idx.getD s dIdx).Key key
  · rw [decide_eq_true hp]
    simp [bsearchSpec]
  · rw [decide_eq_false hp]
    simp [bsearchSpec, List.find?]

theorem binarySearchFuel_eq (idx : List Index) (key : List Nat) :
    ∀ fuel s e, e - s ≤ fuel → s ≤ e → e < idx.length →
      (∀ i j, i ≤ j → j < idx.length →
        bytesCompare (idx.getD i dIdx).Key (idx.getD j dIdx).Key ≤ 0) →
      binarySearchFuel idx key fuel s e = bsearchSpec idx key e (firstGE idx key s e) := by
  intro fuel
  induction fuel with
  | zero =>
    intro s e hf hse _ _
    have hse' : s = e := by omega
    subst hse'
    rw [bsearchSpec_base]
    rfl
  | succ fuel ih =>
    intro s e hf hse hlen hsort
    by_cases hes : e ≤ s
    · have hse' : s = e := by omega
      subst hse'
      rw [bsearchSpec_base]
      rw [binarySearchFuel, if_pos (le_refl s)]
    · have hslt : s < e := by omega
      have hmid_ge : s ≤ s + (e - s) / 2 := by omega
      have hmid_lt : s + (e - s) / 2 < e := by omega
      rw [binarySearchFuel]
      simp only [if_neg hes]
      set mid := s + (e - s) / 2 with hmid
      by_cases hcmp : bytesCompare (idx.getD mid dIdx).Key key < 0
      · rw [if_pos hcmp]
        rw [ih (mid + 1) e (by omega) (by omega) hlen hsort]
        have hsplit : firstGE idx key s e = firstGE idx key (mid + 1) e := by
          simp only [firstGE]
          have h1 : e + 1 - s = (mid + 1 - s) + (e - mid) := by omega
          rw [h1, range'_split, find?_append_eq]
          have h2 : s + (mid + 1 - s) = mid + 1 := by omega
          rw [h2]
          have hnone : (List.range' s (mid + 1 - s)).find?
              (fun j => decide (0 ≤ bytesCompare (idx.getD j dIdx).Key key)) = none := by
            rw [List.find?_eq_none]
            intro x hx
            rw [List.mem_range'_1] at hx
            have hxmid : x ≤ mid := by omega
            have hle := hsort x mid hxmid (by omega)
            have hlt := bytesCompare_lt_of_le_of_lt hle hcmp
            simp only [decide_eq_true_eq]
            omega
          rw [hnone]
          have h3 : e - mid = e + 1 - (mid + 1) := by omega
          rw [h3]
        rw [hsplit]
      · rw [if_neg hcmp]
        rw [ih s mid (by omega) (by omega) (by omega) hsort]
        have hpm : (decide (0 ≤ bytesCompare (idx.getD mid dIdx).Key key)) = true :=
          decide_eq_true (by omega)
        have hsome : ∃ y, firstGE idx key s mid = some y := by
          have hmem : mid ∈ List.range' s (mid + 1 - s) := by
            rw [List.mem_range'_1]
            omega
          have : ((List.range' s (mid + 1 - s)).find?
              (fun j => decide (0 ≤ bytesCompare (idx.getD j dIdx).Key key))).isSome := by
            rw [List.find?_isSome]
            exact ⟨mid, hmem, hpm⟩
          rcases Option.isSome_iff_exists.mp this with ⟨y, hy⟩
          exact ⟨y, hy⟩
        obtain ⟨y, hy⟩ := hsome
        have hsplit : firstGE idx key s e = some y := by
          simp only [firstGE]
          have h1 : e + 1 - s = (mid + 1 - s) + (e - mid) := by omega
          rw [h1, range'_split, find?_append_eq]
          have hy' := hy
          simp only [firstGE] at hy'
          rw [hy']
        rw [hsplit, hy]
        rfl

/-- Correctness of the binary search relative to the first-`>=` position:
on any interval `s <= e` inside a sorted index, it returns the first entry
with key `>= key` (flag `true`), or the entry at `e` with flag `false` when
every key in the interval is `< key`. -/
theorem binarySearchIndex_eq (idx : List Index) (key : List Nat) (s e : Nat)
    (hse : s ≤ e) (hlen : e < idx.length)
    (hsort : ∀ i j, i ≤ j → j < idx.length →
      bytesCompare (idx.getD i dIdx).Key (idx.getD j dIdx).Key ≤ 0) :
    binarySearchIndex idx key s e = bsearchSpec idx key e (firstGE idx key s e) :=
  binarySearchFuel_eq idx key (e - s) s e (le_refl _) hse hlen hsort

theorem bsearchSpec_some (idx : List Index) (key : List Nat) (e j : Nat) :
    bsearchSpec idx key e (some j) = (idx.getD j dIdx, true) := rfl

theorem bsearchSpec_none (idx : List Index) (key : List Nat) (e : Nat) :
    bsearchSpec idx key e none = (idx.getD e dIdx, false) := rfl

theorem ite_bool_mismatch {α : Type} (a b : α) : (if (true = false) then a else b) = b :=
  if_neg (fun h => Bool.noConfusion h)

theorem scanKVs_some_mem {kvs : List KV} {key v : List Nat} :
    scanKVs kvs key = some v → (⟨key, v⟩ : KV) ∈ kvs := by
  induction kvs with
  | nil => intro h; simp [scanKVs] at h
  | cons kv rest ih =>
    intro h
    simp only [scanKVs] at h
    by_cases hk : kv.Key = key
    · rw [if_pos hk] at h
      injection h with h'
      have hkv : kv = ⟨key, v⟩ := by cases kv; simp_all
      exact List.mem_cons.mpr (Or.inl hkv.symm)
    · rw [if_neg hk] at h
      exact List.mem_cons_of_mem _ (ih h)

theorem scanKVs_of_mem {kvs : List KV} {key v : List Nat}
    (hnd : (kvs.map KV.Key).Nodup) (hmem : (⟨key, v⟩ : KV) ∈ kvs) :
    scanKVs kvs key = some v := by
  induction kvs with
  | nil => simp at hmem
  | cons kv rest ih =>
    simp only [List.map_cons, List.nodup_cons] at hnd
    obtain ⟨hhd, htl⟩ := hnd
    rcases List.mem_cons.mp hmem with heq | htail
    · simp [scanKVs, ← heq]
    · have hk : kv.Key ≠ key := by
        intro hc
        apply hhd
        rw [hc]
        exact List.mem_map.mpr ⟨⟨key, v⟩, htail, rfl⟩
      simp only [scanKVs, if_neg hk]
      exact ih htl htail

theorem scanKVs_none_iff {kvs : List KV} {key : List Nat} :
    scanKVs kvs key = none ↔ ∀ v, (⟨key, v⟩ : KV) ∉ kvs := by
  induction kvs with
  | nil => simp [scanKVs]
  | cons kv rest ih =>
    simp only [scanKVs]
    by_cases hk : kv.Key = key
    · rw [if_pos hk]
      constructor
      · intro h; exact absurd h (by simp)
      · intro h
        exfalso
        apply h kv.Value
        have hkv : kv = ⟨key, kv.Value⟩ := by cases kv; simp_all
        exact List.mem_cons.mpr (Or.inl hkv.symm)
    · rw [if_neg hk]
      rw [ih]
      constructor
      · intro h v hv
        rcases List.mem_cons.mp hv with heq | htail
        · apply hk; rw [← heq]
        · exact h v htail
      · intro h v hv
        exact h v (List.mem_cons_of_mem _ hv)

/-- Claim C5: for a segment handle with ascending index keys, `Node.Get`
misses outside `[startKey, endKey]`; otherwise it locates the first index
entry whose stored key is `>= key` (missing when none exists), consults the
filter bitmap recorded for that entry's block (missing on a negative), and
otherwise answers exactly according to whether the decoded candidate block
contains a pair with the looked-up key. -/
theorem nodeGet_spec (filter : List Nat → List Nat → Bool) (n : Node) (key : List Nat)
    (hne : n.index ≠ [])
    (hsort : ∀ i j, i ≤ j → j < n.index.length →
      bytesCompare (n.index.getD i dIdx).Key (n.index.getD j dIdx).Key ≤ 0) :
    ((bytesCompare key n.startKey < 0 ∨ 0 < bytesCompare key n.endKey) →
        nodeGet filter n key = .ok none) ∧
    (¬(bytesCompare key n.startKey < 0 ∨ 0 < bytesCompare key n.endKey) →
        firstGE n.index key 0 (n.index.length - 1) = none →
        nodeGet filter n key = .ok none) ∧
    (∀ j, ¬(bytesCompare key n.startKey < 0 ∨ 0 < bytesCompare key n.endKey) →
        firstGE n.index key 0 (n.index.length - 1) = some j →
        filter (lookupD n.blockToFilter (n.index.getD j dIdx).PrevBlockOffset) key = false →
        nodeGet filter n key = .ok none) ∧
    (∀ j block kvs,
        ¬(bytesCompare key n.startKey < 0 ∨ 0 < bytesCompare key n.endKey) →
        firstGE n.index key 0 (n.index.length - 1) = some j →
        filter (lookupD n.blockToFilter (n.index.getD j dIdx).PrevBlockOffset) key = true →
        n.sstReader.ReadBlock (n.index.getD j dIdx).PrevBlockOffset
            (n.index.getD j dIdx).PrevBlockSize = .ok block →
        n.sstReader.ReadBlockData block = .ok kvs →
        (kvs.map KV.Key).Nodup →
        ((∀ v, nodeGet filter n key = .ok (some v) ↔ (⟨key, v⟩ : KV) ∈ kvs) ∧
          (nodeGet filter n key = .ok none ↔ ∀ v, (⟨key, v⟩ : KV) ∉ kvs))) := by
  have hlenpos : 0 < n.index.length := List.length_pos.mpr hne
  have hb := binarySearchIndex_eq n.index key 0 (n.index.length - 1)
    (by omega) (by omega) hsort
  refine ⟨?_, ?_, ?_, ?_⟩
  · intro hoor
    simp only [nodeGet, if_pos hoor]
  · intro hoor hnone
    simp only [nodeGet, if_neg hoor]
    rw [hb, hnone]
    simp [bsearchSpec]
  · intro j hoor hsome hfilt
    simp only [nodeGet, if_neg hoor, hb, hsome, bsearchSpec_some,
      ite_bool_mismatch, hfilt, if_pos]
  · intro j block kvs hoor hsome hfilt hblock hdata hnd
    have hget : nodeGet filter n key = .ok (scanKVs kvs key) := by
      simp only [nodeGet, if_neg hoor, hb, hsome, bsearchSpec_some,
        ite_bool_mismatch, hfilt, hblock, hdata]
    constructor
    · intro v
      rw [hget]
      constructor
      · intro h
        have hscan : scanKVs kvs key = some v := by injection h
        exact scanKVs_some_mem hscan
      · intro hmem
        rw [scanKVs_of_mem hnd hmem]
    · rw [hget]
      constructor
      · intro h
        have hscan : scanKVs kvs key = none := by injection h
        exact scanKVs_none_iff.mp hscan
      · intro h
        rw [scanKVs_none_iff.mpr h]

def filterTrue : List Nat → List Nat → Bool := fun _ _ => true

def nodeW : Node :=
  NewNode (sstFile 1 1) 1 1 4 [(0, [7])] [⟨[1], 0, 4⟩]
    ⟨[((0, 4), .ok [9, 9])], [([9, 9], .ok [⟨[1], [2]⟩])], .ok [⟨[1], [2]⟩]⟩

/-- Claim C5 witness: the hit case of `nodeGet_spec` on a concrete one-block
segment holding the pair ([1], [2]). -/
theorem nodeGet_spec_witness :
    nodeGet filterTrue nodeW [1] = .ok (some [2]) := by
  have hsort : ∀ i j, i ≤ j → j < nodeW.index.length →
      bytesCompare (nodeW.index.getD i dIdx).Key (nodeW.index.getD j dIdx).Key ≤ 0 := by
    intro i j hij hj
    have hj1 : j < 1 := by simpa [nodeW, NewNode] using hj
    have hj0 : j = 0 := by omega
    have hi0 : i = 0 := by omega
    subst hj0
    subst hi0
    decide
  have h := nodeGet_spec filterTrue nodeW [1] (by decide) hsort
  have h4 := h.2.2.2 0 [9, 9] [⟨[1], [2]⟩] (by decide) (by decide) (by decide)
    (by decide) (by decide) (by decide)
  exact (h4.1 [2]).mpr (by decide)

/-! ## Groups (src/group.go) -/

/-- The `Group` struct.  The `conf` pointer is not stored; the group
operations that consult configuration receive it as a parameter.  The
`nil`-able aggregate range fields become `Option`s. -/
structure Group where
  id : Nat
  nodes : List Node
  startKey : Option (List Nat)
  endKey : Option (List Nat)
  size : Nat
deriving DecidableEq

def NewGroup (id : Nat) : Group := ⟨id, [], none, none, 0⟩

/-- 2^64; group sizes are Go `uint64`, so size arithmetic wraps mod this. -/
def U64 : Nat := 18446744073709551616

def u64add (a b : Nat) : Nat := (a + b) % U64

def u64sub (a b : Nat) : Nat := (a + (U64 - b % U64)) % U64

/-- One step of `updateKeyRange`'s loop: lower the running start, raise the
running end. -/
def rangeStep (acc : List Nat × List Nat) (n : Node) : List Nat × List Nat :=
  (if bytesCompare n.startKey acc.1 < 0 then n.startKey else acc.1,
   if 0 < bytesCompare n.endKey acc.2 then n.endKey else acc.2)

/-- Embedding of `updateKeyRange`: `(nil, nil)` for an empty group, else the
fold from `nodes[0]`'s range taking the minimum start and maximum end over
all nodes. -/
def computeKeyRange : List Node → Option (List Nat) × Option (List Nat)
  | [] => (none, none)
  | n0 :: rest =>
    let r := (n0 :: rest).foldl rangeStep (n0.startKey, n0.endKey)
    (some r.1, some r.2)

def insertByStart (n : Node) : List Node → List Node
  | [] => [n]
  | m :: ms =>
    if bytesCompare n.startKey m.startKey < 0 then n :: m :: ms
    else m :: insertByStart n ms

/-- Embedding of `sortNodes` (`sort.Slice` by ascending start key) as an
insertion sort.  Go's `sort.Slice` is unstable, so the order of nodes with
equal start keys is unspecified there; the model fixes one such order. -/
def sortNodes (l : List Node) : List Node := l.foldr insertByStart []

/-- Embedding of `Group.AddNode`: append, wrap-add the size, recompute the
aggregate range, re-sort by start key. -/
def AddNode (g : Group) (node : Node) : Group :=
  let nodes1 := g.nodes ++ [node]
  let kr := computeKeyRange nodes1
  { g with
    nodes := sortNodes nodes1
    size := u64add g.size node.size
    startKey := kr.1
    endKey := kr.2 }

/-- First-occurrence removal by (pointer) identity; `none` when absent. -/
def removeFirst (n : Node) : List Node → Option (List Node)
  | [] => none
  | m :: ms => if m = n then some ms else (removeFirst n ms).map (fun r => m :: r)

/-- Embedding of `Group.RemoveNode`: Go compares node pointers; distinct live
nodes are structurally distinct (their filenames embed a fresh sequence
number), so pointer identity is modelled as structural identity. -/
def RemoveNode (g : Group) (n : Node) : Group × Bool :=
  match removeFirst n g.nodes with
  | none => (g, false)
  | some rest =>
    let kr := computeKeyRange rest
    ({ g with
        nodes := rest
        size := u64sub g.size n.size
        startKey := kr.1
        endKey := kr.2 }, true)

/-- Embedding of `keyInRange`: `false` when the range is unset, else
`startKey <= key <= endKey`. -/
def keyInRange (g : Group) (key : List Nat) : Bool :=
  match g.startKey, g.endKey with
  | some s, some e => decide (0 ≤ bytesCompare key s) && decide (bytesCompare key e ≤ 0)
  | _, _ => false

/-- First error or first hit in a list of probe results; `ok none` when every
probe misses.  This is the shape of the early-return loops in `Group.Get`
and `Tree.Get`. -/
def firstHitE : List (Except GoErr (Option (List Nat))) → Except GoErr (Option (List Nat))
  | [] => .ok none
  | r :: rs =>
    match r with
    | .error e => .error e
    | .ok (some v) => .ok (some v)
    | .ok none => firstHitE rs

/-- Embedding of `Group.Get`: aggregate-range check, then probe the member
segments from last to first, returning the first error or hit. -/
def groupGet (filter : List Nat → List Nat → Bool) (g : Group) (key : List Nat) :
    Except GoErr (Option (List Nat)) :=
  if keyInRange g key = false then .ok none
  else firstHitE (g.nodes.reverse.map (fun n => nodeGet filter n key))

/-- The loop of `Group.GetAllKVs`: feed every member segment's pairs, in
member-list order, into a fresh memtable; the first read error aborts. -/
def getAllKVsGo : List Node → MemTable → Except GoErr (List KV)
  | [], m => .ok (memAll m)
  | n :: ns, m =>
    match n.sstReader.ReadData with
    | .error e => .error e
    | .ok kvs => getAllKVsGo ns (putAll m kvs)

/-- Embedding of `Group.GetAllKVs` (the Go code rebuilds the result as a
fresh slice of pairs with the same keys and values, which is value-identical
to the memtable's sorted entries). -/
def GetAllKVs (g : Group) : Except GoErr (List KV) :=
  getAllKVsGo g.nodes emptyMem

/-! ## Range-fold lemmas -/

theorem rangeStep_lower (acc : List Nat × List Nat) (n : Node) :
    bytesCompare (rangeStep acc n).1 acc.1 ≤ 0 ∧
      bytesCompare (rangeStep acc n).1 n.startKey ≤ 0 := by
  simp only [rangeStep]
  by_cases h : bytesCompare n.startKey acc.1 < 0
  · rw [if_pos h]
    exact ⟨le_of_lt h, by rw [bytesCompare_self]⟩
  · rw [if_neg h]
    refine ⟨by rw [bytesCompare_self], ?_⟩
    have := bytesCompare_swap n.startKey acc.1
    omega

theorem rangeStep_upper (acc : List Nat × List Nat) (n : Node) :
    bytesCompare acc.2 (rangeStep acc n).2 ≤ 0 ∧
      bytesCompare n.endKey (rangeStep acc n).2 ≤ 0 := by
  simp only [rangeStep]
  by_cases h : 0 < bytesCompare n.endKey acc.2
  · rw [if_pos h]
    refine ⟨?_, by rw [bytesCompare_self]⟩
    have := bytesCompare_swap n.endKey acc.2
    omega
  · rw [if_neg h]
    exact ⟨by rw [bytesCompare_self], by omega⟩

theorem foldl_rangeStep_lower (l : List Node) :
    ∀ acc, bytesCompare (l.foldl rangeStep acc).1 acc.1 ≤ 0 ∧
      ∀ n ∈ l, bytesCompare (l.foldl rangeStep acc).1 n.startKey ≤ 0 := by
  induction l with
  | nil =>
    intro acc
    exact ⟨by simp [bytesCompare_self], by intro n hn; simp at hn⟩
  | cons m ms ih =>
    intro acc
    rw [List.foldl_cons]
    obtain ⟨ih1, ih2⟩ := ih (rangeStep acc m)
    obtain ⟨hs1, hs2⟩ := rangeStep_lower acc m
    refine ⟨bytesCompare_le_trans ih1 hs1, ?_⟩
    intro n hn
    rcases List.mem_cons.mp hn with hn | hn
    · subst hn
      exact bytesCompare_le_trans ih1 hs2
    · exact ih2 n hn

theorem foldl_rangeStep_upper (l : List Node) :
    ∀ acc, bytesCompare acc.2 (l.foldl rangeStep acc).2 ≤ 0 ∧
      ∀ n ∈ l, bytesCompare n.endKey (l.foldl rangeStep acc).2 ≤ 0 := by
  induction l with
  | nil =>
    intro acc
    exact ⟨by simp [bytesCompare_self], by intro n hn; simp at hn⟩
  | cons m ms ih =>
    intro acc
    rw [List.foldl_cons]
    obtain ⟨ih1, ih2⟩ := ih (rangeStep acc m)
    obtain ⟨hs1, hs2⟩ := rangeStep_upper acc m
    refine ⟨bytesCompare_le_trans hs1 ih1, ?_⟩
    intro n hn
    rcases List.mem_cons.mp hn with hn | hn
    · subst hn
      exact bytesCompare_le_trans hs2 ih1
    · exact ih2 n hn

theorem computeKeyRange_bounds {l : List Node} {a b : List Nat}
    (h : computeKeyRange l = (some a, some b)) :
    ∀ n ∈ l, bytesCompare a n.startKey ≤ 0 ∧ bytesCompare n.endKey b ≤ 0 := by
  cases l with
  | nil => simp [computeKeyRange] at h
  | cons n0 rest =>
    simp only [computeKeyRange] at h
    injection h with h1 h2
    injection h1 with h1
    injection h2 with h2
    intro n hn
    constructor
    · rw [← h1]
      exact (foldl_rangeStep_lower (n0 :: rest) (n0.startKey, n0.endKey)).2 n hn
    · rw [← h2]
      exact (foldl_rangeStep_upper (n0 :: rest) (n0.startKey, n0.endKey)).2 n hn

theorem computeKeyRange_cons (n0 : Node) (rest : List Node) :
    ∃ a b, computeKeyRange (n0 :: rest) = (some a, some b) := by
  simp only [computeKeyRange]
  exact ⟨_, _, rfl⟩

/-! ## Claim C10: RemoveNode -/

theorem removeFirst_eq_none {n : Node} :
    ∀ {l : List Node}, n ∉ l → removeFirst n l = none := by
  intro l
  induction l with
  | nil => intro _; rfl
  | cons m ms ih =>
    intro hn
    have hm : m ≠ n := fun hc => hn (by rw [hc]; exact List.mem_cons_self n ms)
    have htail : n ∉ ms := fun hc => hn (List.mem_cons_of_mem m hc)
    simp only [removeFirst]
    rw [if_neg hm, ih htail]
    rfl

theorem removeFirst_split {n : Node} :
    ∀ (l1 l2 : List Node), n ∉ l1 → removeFirst n (l1 ++ n :: l2) = some (l1 ++ l2) := by
  intro l1
  induction l1 with
  | nil =>
    intro l2 _
    simp [removeFirst]
  | cons m ms ih =>
    intro l2 hn
    have hm : m ≠ n := fun hc => hn (by rw [hc]; exact List.mem_cons_self n ms)
    have htail : n ∉ ms := fun hc => hn (List.mem_cons_of_mem m hc)
    show removeFirst n (m :: (ms ++ n :: l2)) = some (m :: (ms ++ l2))
    simp only [removeFirst]
    rw [if_neg hm, ih l2 htail]
    rfl

theorem u64sub_eq {a b : Nat} (hba : b ≤ a) (ha : a < U64) : u64sub a b = a - b := by
  simp only [u64sub, U64] at *
  omega

/-- Claim C10: `RemoveNode` on a non-member returns `false` and leaves the
node list, size and aggregate range untouched; on a member it returns
`true`, removes exactly that element (the first identity match), subtracts
its size, and recomputes the range from the remaining nodes — `(nil, nil)`
when the group becomes empty. -/
theorem removeNode_spec (g : Group) (n : Node)
    (hsz : n.size ≤ g.size) (hlt : g.size < U64) :
    (n ∉ g.nodes → RemoveNode g n = (g, false)) ∧
    (∀ l1 l2, g.nodes = l1 ++ n :: l2 → n ∉ l1 →
      RemoveNode g n =
        ({ g with
            nodes := l1 ++ l2
            size := g.size - n.size
            startKey := (computeKeyRange (l1 ++ l2)).1
            endKey := (computeKeyRange (l1 ++ l2)).2 }, true)) ∧
    computeKeyRange [] = (none, none) := by
  refine ⟨?_, ?_, rfl⟩
  · intro hnot
    simp only [RemoveNode, removeFirst_eq_none hnot]
  · intro l1 l2 hsplit hnot
    simp only [RemoveNode, hsplit, removeFirst_split l1 l2 hnot,
      u64sub_eq hsz hlt]

def nodeW2 : Node :=
  NewNode (sstFile 1 2) 1 2 3 [] [⟨[9], 0, 0⟩] ⟨[], [], .ok [⟨[9], [4]⟩]⟩

def groupW : Group := AddNode (AddNode (NewGroup 1) nodeW) nodeW2

/-- Claim C10 witness: removing the first (identity-matched) node from a
concrete two-node group. -/
theorem removeNode_spec_witness :
    (RemoveNode groupW nodeW).2 = true ∧
      (RemoveNode groupW nodeW).1.nodes = [nodeW2] ∧
      (RemoveNode groupW nodeW).1.size = 3 ∧
      (RemoveNode groupW nodeW).1.startKey = some [9] ∧
      (RemoveNode groupW nodeW).1.endKey = some [9] := by
  have h := (removeNode_spec groupW nodeW (by decide) (by decide)).2.1
    [] [nodeW2] (by decide) (by decide)
  rw [h]
  refine ⟨rfl, rfl, by decide, by decide, by decide⟩

/-! ## Claim C6: GetAllKVs -/

def segA : Node :=
  NewNode (sstFile 1 1) 1 1 4 [] [⟨[5], 0, 0⟩] ⟨[], [], .ok [⟨[5], [1]⟩]⟩

def segB : Node :=
  NewNode (sstFile 1 2) 1 2 8 [] [⟨[1], 0, 0⟩, ⟨[5], 0, 0⟩]
    ⟨[], [], .ok [⟨[1], [7]⟩, ⟨[5], [2]⟩]⟩

def groupAB : Group := AddNode (AddNode (NewGroup 1) segA) segB

/-- Claim C6 (counterexample): `segB` is added to the group after `segA` and
also holds key `[5]` (with value `[2]`), but because `AddNode` keeps the
node list sorted by start key, `segB` (start `[1]`) sorts before `segA`
(start `[5]`), so `GetAllKVs` merges `segA` last and `segA`'s value `[1]`
survives for key `[5]` — the later-ADDED segment loses. -/
theorem getAllKVs_later_added_overwritten :
    GetAllKVs groupAB = .ok [⟨[1], [7]⟩, ⟨[5], [1]⟩] ∧
      (⟨[5], [2]⟩ : KV) ∉ [(⟨[1], [7]⟩ : KV), ⟨[5], [1]⟩] := by
  exact ⟨by decide, by decide⟩

theorem putAll_append (m : MemTable) (l1 l2 : List KV) :
    putAll m (l1 ++ l2) = putAll (putAll m l1) l2 := by
  simp [putAll, List.foldl_append]

theorem getAllKVsGo_ok :
    ∀ (nodes : List Node) (kvss : List (List KV)) (m : MemTable),
      nodes.map (fun n => n.sstReader.data) = kvss.map Except.ok →
      getAllKVsGo nodes m = .ok (memAll (putAll m kvss.flatten)) := by
  intro nodes
  induction nodes with
  | nil =>
    intro kvss m h
    cases kvss with
    | nil => simp [getAllKVsGo, putAll]
    | cons l ls => simp at h
  | cons nd ns ih =>
    intro kvss m h
    cases kvss with
    | nil => simp at h
    | cons l ls =>
      simp only [List.map_cons, List.cons.injEq] at h
      obtain ⟨h1, h2⟩ := h
      simp only [getAllKVsGo, SSTReader.ReadData, h1]
      rw [ih ls (putAll m l) h2]
      rw [List.flatten_cons, putAll_append]

/-- Claim C6 (amended): `GetAllKVs` merges all member segments into a single
list sorted strictly ascending by key (hence each key occurs at most once),
and for a key held by several segments the surviving value is the one from
the segment occupying the LATER position in the group's node list — which
is kept sorted by start key, so it is not necessarily the later-added
segment. -/
theorem getAllKVs_spec (g : Group) (kvss : List (List KV))
    (h : g.nodes.map (fun n => n.sstReader.data) = kvss.map Except.ok) :
    ∃ res, GetAllKVs g = .ok res ∧
      EntriesSorted res ∧
      (res.map KV.Key).Nodup ∧
      ∀ k v, ((⟨k, v⟩ : KV) ∈ res ↔ lastAssoc kvss.flatten k = some v) := by
  refine ⟨memAll (putAll emptyMem kvss.flatten), ?_, ?_, ?_, ?_⟩
  · exact getAllKVsGo_ok g.nodes kvss emptyMem h
  · exact putAll_sorted kvss.flatten emptyMem (by simp [emptyMem, EntriesSorted])
  · have hs : EntriesSorted (putAll emptyMem kvss.flatten).entries :=
      putAll_sorted kvss.flatten emptyMem (by simp [emptyMem, EntriesSorted])
    exact hs.map KV.Key (fun a b hab => by
      intro hc
      rw [← bytesCompare_eq_zero_iff a.Key b.Key] at hc
      omega)
  · intro k v
    have hs : EntriesSorted (putAll emptyMem kvss.flatten).entries :=
      putAll_sorted kvss.flatten emptyMem (by simp [emptyMem, EntriesSorted])
    rw [show memAll (putAll emptyMem kvss.flatten) = (putAll emptyMem kvss.flatten).entries
      from rfl]
    rw [mem_entries_iff_memGet hs]
    rw [memGet_putAll]
    cases hl : lastAssoc kvss.flatten k with
    | none =>
      constructor
      · intro hc
        exact absurd hc (by simp [memGet, emptyMem, List.find?])
      · intro hc
        exact absurd hc (by simp)
    | some w => exact Iff.rfl

/-- Claim C6 witness: the amended statement instantiated at the concrete
two-segment group. -/
theorem getAllKVs_spec_witness :
    ∃ res, GetAllKVs groupAB = .ok res ∧
      EntriesSorted res ∧
      (res.map KV.Key).Nodup ∧
      ∀ k v, ((⟨k, v⟩ : KV) ∈ res ↔
        lastAssoc ([[⟨[1], [7]⟩, ⟨[5], [2]⟩], [⟨[5], [1]⟩]] : List (List KV)).flatten k
          = some v) :=
  getAllKVs_spec groupAB [[⟨[1], [7]⟩, ⟨[5], [2]⟩], [⟨[5], [1]⟩]] (by decide)

/-! ## Group probing seen as a flat probe sequence -/

/-- A group's recorded aggregate range agrees with `updateKeyRange` of its
node list — the invariant `AddNode`/`RemoveNode` maintain. -/
def rangeConsistent (g : Group) : Prop :=
  (g.startKey, g.endKey) = computeKeyRange g.nodes

theorem nodeGet_oor {filter : List Nat → List Nat → Bool} {n : Node} {key : List Nat}
    (h : bytesCompare key n.startKey < 0 ∨ 0 < bytesCompare key n.endKey) :
    nodeGet filter n key = .ok none := by
  simp only [nodeGet, if_pos h]

theorem firstHitE_all_none :
    ∀ {l : List (Except GoErr (Option (List Nat)))},
      (∀ x ∈ l, x = .ok none) → firstHitE l = .ok none := by
  intro l
  induction l with
  | nil => intro _; rfl
  | cons r rs ih =>
    intro h
    have hr : r = .ok none := h r (List.mem_cons_self r rs)
    subst hr
    exact ih (fun x hx => h x (List.mem_cons_of_mem _ hx))

/-- With a consistent aggregate range, the range check in `Group.Get` is
transparent: the group behaves exactly as the newest-first probe sequence
over its member segments. -/
theorem groupGet_flat (filter : List Nat → List Nat → Bool) (g : Group) (key : List Nat)
    (h : rangeConsistent g) :
    groupGet filter g key =
      firstHitE (g.nodes.reverse.map (fun n => nodeGet filter n key)) := by
  by_cases hk : keyInRange g key = false
  · rw [groupGet, if_pos hk]
    symm
    apply firstHitE_all_none
    intro x hx
    rw [List.mem_map] at hx
    obtain ⟨n, hn, hxn⟩ := hx
    rw [List.mem_reverse] at hn
    cases hnodes : g.nodes with
    | nil =>
      rw [hnodes] at hn
      simp at hn
    | cons n0 rest =>
      obtain ⟨a, b, hab⟩ := computeKeyRange_cons n0 rest
      have hcr : computeKeyRange g.nodes = (some a, some b) := by rw [hnodes]; exact hab
      have hga : g.startKey = some a := by
        have := congrArg Prod.fst (h.trans hcr)
        simpa using this
      have hgb : g.endKey = some b := by
        have := congrArg Prod.snd (h.trans hcr)
        simpa using this
      have hbounds := computeKeyRange_bounds hcr n hn
      simp only [keyInRange, hga, hgb] at hk
      have hout : bytesCompare key a < 0 ∨ 0 < bytesCompare key b := by
        by_cases h1 : 0 ≤ bytesCompare key a
        · by_cases h2 : bytesCompare key b ≤ 0
          · rw [decide_eq_true h1, decide_eq_true h2] at hk
            exact absurd hk (by decide)
          · right; omega
        · left; omega
      rw [← hxn]
      apply nodeGet_oor
      rcases hout with hout | hout
      · left
        exact bytesCompare_lt_of_lt_of_le hout hbounds.1
      · right
        have hbk : bytesCompare b key < 0 := by
          have := bytesCompare_swap key b
          omega
        have := bytesCompare_lt_of_le_of_lt hbounds.2 hbk
        have hsw := bytesCompare_swap n.endKey key
        omega
  · rw [groupGet, if_neg hk]

/-! ## Engine (Tree) state and operations (src/unnamed/part_002) -/

/-- The configuration record.  `Filter` and `MemTableConstructor` are
capability boundaries and are passed to the operations that need them;
`CompactionRatio` is a float64 used only by `ShouldCompact`, which none of
the claims need (compaction is modelled as an explicit transition). -/
structure Config where
  Dir : List Char
  GroupSize : Nat
  GroupSSTSize : Nat
  MaxGroups : Nat
  SSTDataBlockSize : Nat
  SSTFooterSize : Nat
deriving DecidableEq, Repr

/-- An immutable-buffer item: the frozen memtable plus its WAL path. -/
structure memTableCompactItem where
  walFile : List Char
  memTable : MemTable
deriving DecidableEq, Repr

/-- The engine state.  The WAL writer is modelled by its path plus the
records appended so far; the asynchronous channel send of a frozen buffer to
the compactor is modelled by appending to `flushQueue`. -/
structure TreeState where
  memTable : MemTable
  rOnlyMemTable : List memTableCompactItem
  walPath : List Char
  walRecords : List KV
  groups : List Group
  memTableIndex : Nat
  groupSeq : Nat
  sstSeq : Nat
  flushQueue : List memTableCompactItem
deriving DecidableEq

/-- Embedding of `Tree.walFile`: `{Dir}/walfile/{memTableIndex}.wal`. -/
def walFileName (conf : Config) (idx : Nat) : List Char :=
  conf.Dir ++ "/walfile/".data ++ natChars idx ++ ".wal".data

/-- Embedding of `refreshMemTableLocked`: freeze the active memtable with
its WAL path onto the read-only queue, hand it to the compactor, then
install a fresh memtable with a new WAL at the incremented index. -/
def refreshMemTableLocked (conf : Config) (t : TreeState) : TreeState :=
  let oldItem : memTableCompactItem := ⟨walFileName conf t.memTableIndex, t.memTable⟩
  { t with
    rOnlyMemTable := t.rOnlyMemTable ++ [oldItem]
    flushQueue := t.flushQueue ++ [oldItem]
    memTableIndex := t.memTableIndex + 1
    walPath := walFileName conf (t.memTableIndex + 1)
    walRecords := []
    memTable := emptyMem }

/-- Embedding of `Tree.Put`.  The WAL append is file I/O, so its outcome is
an explicit oracle argument: `some e` means the write failed with error `e`
(the spec's writer flushes before returning, so a failed append contributes
no acknowledged record). -/
def TreePut (conf : Config) (t : TreeState) (key value : List Nat)
    (walErr : Option GoErr) : TreeState × Option GoErr :=
  match walErr with
  | some e => (t, some e)
  | none =>
    let t1 : TreeState :=
      { t with
        walRecords := t.walRecords ++ [⟨key, value⟩]
        memTable := memPut t.memTable key value }
    if memSize t1.memTable * 5 / 4 ≤ conf.GroupSSTSize then (t1, none)
    else (refreshMemTableLocked conf t1, none)

/-- First hit in a list of memtable probes (the read-only-queue loop of
`Tree.Get`). -/
def firstHit? : List (Option (List Nat)) → Option (List Nat)
  | [] => none
  | r :: rs =>
    match r with
    | some v => some v
    | none => firstHit? rs

/-- Embedding of `Tree.Get`: active memtable, then the read-only queue
newest-to-oldest, then the groups newest-to-oldest. -/
def TreeGet (filter : List Nat → List Nat → Bool) (t : TreeState) (key : List Nat) :
    Except GoErr (Option (List Nat)) :=
  match memGet t.memTable key with
  | some v => .ok (some v)
  | none =>
    match firstHit? (t.rOnlyMemTable.reverse.map (fun it => memGet it.memTable key)) with
    | some v => .ok (some v)
    | none => firstHitE (t.groups.reverse.map (fun g => groupGet filter g key))

/-- The per-group condition of `findOrCreateGroup`'s search loop: fewer than
`GroupSize` segments, and an unset range or standard interval overlap. -/
def groupMatches (conf : Config) (s e : List Nat) (g : Group) : Bool :=
  decide (g.nodes.length < conf.GroupSize) &&
    (match g.startKey, g.endKey with
     | some gs, some ge =>
       !(decide (bytesCompare e gs < 0) || decide (0 < bytesCompare s ge))
     | _, _ => true)

/-- The search loop of `findOrCreateGroup`: first group in list order
satisfying `groupMatches`. -/
def findMatchingGroup (conf : Config) (s e : List Nat) : List Group → Option Group
  | [] => none
  | g :: gs => if groupMatches conf s e g then some g else findMatchingGroup conf s e gs

/-- Embedding of `findOrCreateGroup`: first matching group, else a fresh
group (id from the group-id generator) appended while below `MaxGroups`,
else the last group; the final branch creating a group when the list is
empty mirrors the code's unreachable fallback. -/
def findOrCreateGroup (conf : Config) (t : TreeState) (s e : List Nat) :
    TreeState × Group :=
  match findMatchingGroup conf s e t.groups with
  | some g => (t, g)
  | none =>
    if t.groups.length < conf.MaxGroups then
      let gid := t.groupSeq + 1
      let g := NewGroup gid
      ({ t with
          groupSeq := gid
          groups := t.groups ++ [g] }, g)
    else
      match t.groups.getLast? with
      | some g => (t, g)
      | none =>
        let gid := t.groupSeq + 1
        let g := NewGroup gid
        ({ t with
            groupSeq := gid
            groups := t.groups ++ [g] }, g)

/-! ## Claim C4: Put on WAL failure -/

/-- Claim C4: when the WAL append fails, `Put` surfaces that error and the
engine state is unchanged — nothing is inserted, no rotation happens, and
`memTableIndex` and the read-only queue keep their values. -/
theorem treePut_walError_noop (conf : Config) (t : TreeState) (key value : List Nat)
    (e : GoErr) :
    TreePut conf t key value (some e) = (t, some e) ∧
      (TreePut conf t key value (some e)).1.memTable = t.memTable ∧
      (TreePut conf t key value (some e)).1.rOnlyMemTable = t.rOnlyMemTable ∧
      (TreePut conf t key value (some e)).1.memTableIndex = t.memTableIndex ∧
      (TreePut conf t key value (some e)).1.walRecords = t.walRecords ∧
      (TreePut conf t key value (some e)).1.groups = t.groups :=
  ⟨rfl, rfl, rfl, rfl, rfl, rfl⟩

/-! ## Claim C3: Put rotation threshold -/

/-- Claim C3: `Put` rotates exactly when, after the insertion, the active
buffer's size times 5/4 (Go integer arithmetic: `Size()*5/4`) exceeds
`GroupSSTSize`; on rotation the frozen buffer with its WAL path goes onto
the read-only queue and to the compactor, `memTableIndex` is incremented,
and a fresh empty memtable with a WAL at the new `{memTableIndex}.wal` is
installed; below the threshold only the insertion happens. -/
theorem treePut_rotation_spec (conf : Config) (t : TreeState) (key value : List Nat) :
    ((TreePut conf t key value none).1.memTableIndex = t.memTableIndex + 1 ↔
        conf.GroupSSTSize < memSize (memPut t.memTable key value) * 5 / 4) ∧
    (conf.GroupSSTSize < memSize (memPut t.memTable key value) * 5 / 4 →
        (TreePut conf t key value none).1 =
          { t with
            memTable := emptyMem
            rOnlyMemTable := t.rOnlyMemTable ++
              [⟨walFileName conf t.memTableIndex, memPut t.memTable key value⟩]
            flushQueue := t.flushQueue ++
              [⟨walFileName conf t.memTableIndex, memPut t.memTable key value⟩]
            memTableIndex := t.memTableIndex + 1
            walPath := walFileName conf (t.memTableIndex + 1)
            walRecords := [] }) ∧
    (memSize (memPut t.memTable key value) * 5 / 4 ≤ conf.GroupSSTSize →
        (TreePut conf t key value none).1 =
          { t with
            memTable := memPut t.memTable key value
            walRecords := t.walRecords ++ [⟨key, value⟩] }) ∧
    (TreePut conf t key value none).2 = none := by
  by_cases hth : memSize (memPut t.memTable key value) * 5 / 4 ≤ conf.GroupSSTSize
  · have hput : TreePut conf t key value none =
        ({ t with
            memTable := memPut t.memTable key value
            walRecords := t.walRecords ++ [⟨key, value⟩] }, none) := by
      simp only [TreePut]
      rw [if_pos hth]
    rw [hput]
    refine ⟨?_, ?_, fun _ => rfl, rfl⟩
    · constructor
      · intro hc
        exfalso
        have : t.memTableIndex = t.memTableIndex + 1 := hc
        omega
      · intro hc; omega
    · intro hc; omega
  · have hput : TreePut conf t key value none =
        ({ t with
            memTable := emptyMem
            rOnlyMemTable := t.rOnlyMemTable ++
              [⟨walFileName conf t.memTableIndex, memPut t.memTable key value⟩]
            flushQueue := t.flushQueue ++
              [⟨walFileName conf t.memTableIndex, memPut t.memTable key value⟩]
            memTableIndex := t.memTableIndex + 1
            walPath := walFileName conf (t.memTableIndex + 1)
            walRecords := [] }, none) := by
      simp only [TreePut]
      rw [if_neg hth]
      rfl
    rw [hput]
    refine ⟨?_, fun _ => rfl, ?_, rfl⟩
    · constructor
      · intro _; omega
      · intro _; rfl
    · intro hc; omega

def confW2 : Config := ⟨"d".data, 10, 4, 100, 64, 32⟩

def treeW2 : TreeState :=
  ⟨emptyMem, [], walFileName confW2 0, [], [], 0, 0, 0, []⟩

/-- Claim C3 witness: inserting 4 encoded bytes with `GroupSSTSize = 4`
makes the post-insert size check `4*5/4 = 5 > 4` fire, so the put rotates. -/
theorem treePut_rotation_spec_witness :
    (TreePut confW2 treeW2 [1] [2, 3, 4] none).1.memTableIndex = treeW2.memTableIndex + 1 ∧
      memSize (memPut treeW2.memTable [1] [2, 3, 4]) * 5 / 4 = 5 := by
  refine ⟨(treePut_rotation_spec confW2 treeW2 [1] [2, 3, 4]).1.mpr (by decide), by decide⟩

/-! ## Claim C2: Get probe order -/

theorem firstHitE_cons_none (l : List (Except GoErr (Option (List Nat)))) :
    firstHitE (.ok none :: l) = firstHitE l := rfl

theorem firstHitE_append (l1 l2 : List (Except GoErr (Option (List Nat)))) :
    firstHitE (l1 ++ l2) =
      match firstHitE l1 with
      | .error e => .error e
      | .ok (some v) => .ok (some v)
      | .ok none => firstHitE l2 := by
  induction l1 with
  | nil => rfl
  | cons r rs ih =>
    cases r with
    | error e => rfl
    | ok o =>
      cases o with
      | some v => rfl
      | none => simpa [firstHitE] using ih

theorem firstHitE_map_ok {α : Type} (f : α → Option (List Nat)) (l : List α) :
    firstHitE (l.map (fun x => Except.ok (f x))) = .ok (firstHit? (l.map f)) := by
  induction l with
  | nil => rfl
  | cons o os ih =>
    cases hf : f o with
    | some v => simp only [List.map_cons, firstHitE, firstHit?, hf]
    | none =>
      simp only [List.map_cons, firstHitE, firstHit?, hf]
      exact ih

/-- Claim C2: `Tree.Get` probes the active memtable, then the read-only
memtables newest to oldest, then the groups newest to oldest — each group
probing its own segments newest-first — and returns the first hit; when no
component holds the key the result is `(nil, false, nil)` (here `.ok none`,
since `firstHitE` of all-miss probes is `.ok none`). -/
theorem treeGet_probe_order (filter : List Nat → List Nat → Bool) (t : TreeState)
    (key : List Nat) (h : ∀ g ∈ t.groups, rangeConsistent g) :
    TreeGet filter t key =
      firstHitE (Except.ok (memGet t.memTable key) ::
        (t.rOnlyMemTable.reverse.map (fun it => Except.ok (memGet it.memTable key)) ++
          t.groups.reverse.map (fun g =>
            firstHitE (g.nodes.reverse.map (fun n => nodeGet filter n key))))) := by
  have hmapg : t.groups.reverse.map (fun g => groupGet filter g key) =
      t.groups.reverse.map (fun g =>
        firstHitE (g.nodes.reverse.map (fun n => nodeGet filter n key))) := by
    apply List.map_congr_left
    intro g hg
    exact groupGet_flat filter g key (h g (List.mem_reverse.mp hg))
  cases hm : memGet t.memTable key with
  | some v => simp only [TreeGet, hm]; rfl
  | none =>
    simp only [TreeGet, hm, firstHitE_cons_none, firstHitE_append, firstHitE_map_ok]
    cases hr : firstHit? (t.rOnlyMemTable.reverse.map (fun it => memGet it.memTable key)) with
    | some v => rfl
    | none =>
      show firstHitE (t.groups.reverse.map (fun g => groupGet filter g key)) =
        firstHitE (t.groups.reverse.map (fun g =>
          firstHitE (g.nodes.reverse.map (fun n => nodeGet filter n key))))
      rw [hmapg]

instance (g : Group) : Decidable (rangeConsistent g) :=
  inferInstanceAs (Decidable ((g.startKey, g.endKey) = computeKeyRange g.nodes))

def treeW3 : TreeState :=
  ⟨⟨[⟨[3], [4]⟩], 2⟩, [⟨walFileName confW2 0, ⟨[⟨[6], [8]⟩], 2⟩⟩],
    walFileName confW2 1, [], [groupAB], 1, 1, 2, []⟩

/-- Claim C2 witness: the probe-order equation instantiated on a concrete
engine state (an active memtable, one read-only memtable, one two-segment
group) at a key held only by the read-only memtable. -/
theorem treeGet_probe_order_witness :
    TreeGet filterTrue treeW3 [6] = .ok (some [8]) := by
  have h := treeGet_probe_order filterTrue treeW3 [6] (by decide)
  rw [h]
  decide

/-! ## Claim C7: findOrCreateGroup routing -/

/-- The matching condition of the claim, stated propositionally: fewer than
`GroupSize` segments, and either an empty (unset) range or standard
interval overlap with `[s, e]`. -/
def groupMatchesP (conf : Config) (s e : List Nat) (g : Group) : Prop :=
  g.nodes.length < conf.GroupSize ∧
    (match g.startKey, g.endKey with
     | some gs, some ge => ¬(bytesCompare e gs < 0 ∨ 0 < bytesCompare s ge)
     | _, _ => True)

theorem groupMatches_iff (conf : Config) (s e : List Nat) (g : Group) :
    groupMatches conf s e g = true ↔ groupMatchesP conf s e g := by
  simp only [groupMatches, groupMatchesP, Bool.and_eq_true, decide_eq_true_eq]
  cases g.startKey with
  | none => simp
  | some gs =>
    cases g.endKey with
    | none => simp
    | some ge => simp [Bool.not_eq_true', Bool.or_eq_false_iff, not_or]

theorem findMatchingGroup_first (conf : Config) (s e : List Nat) :
    ∀ (l1 : List Group) (g : Group) (l2 : List Group),
      (∀ g' ∈ l1, ¬ groupMatchesP conf s e g') → groupMatchesP conf s e g →
      findMatchingGroup conf s e (l1 ++ g :: l2) = some g := by
  intro l1
  induction l1 with
  | nil =>
    intro g l2 _ hg
    simp only [List.nil_append, findMatchingGroup]
    rw [if_pos ((groupMatches_iff conf s e g).mpr hg)]
  | cons m ms ih =>
    intro g l2 hnot hg
    have hm : ¬ (groupMatches conf s e m = true) := fun hc =>
      hnot m (List.mem_cons_self m ms) ((groupMatches_iff conf s e m).mp hc)
    show findMatchingGroup conf s e (m :: (ms ++ g :: l2)) = some g
    simp only [findMatchingGroup]
    rw [if_neg hm]
    exact ih g l2 (fun g' hg' => hnot g' (List.mem_cons_of_mem m hg')) hg

theorem findMatchingGroup_none (conf : Config) (s e : List Nat) :
    ∀ {l : List Group}, (∀ g ∈ l, ¬ groupMatchesP conf s e g) →
      findMatchingGroup conf s e l = none := by
  intro l
  induction l with
  | nil => intro _; rfl
  | cons m ms ih =>
    intro h
    have hm : ¬ (groupMatches conf s e m = true) := fun hc =>
      h m (List.mem_cons_self m ms) ((groupMatches_iff conf s e m).mp hc)
    simp only [findMatchingGroup]
    rw [if_neg hm]
    exact ih (fun g hg => h g (List.mem_cons_of_mem m hg))

/-- Claim C7: `findOrCreateGroup` returns the first group in list order with
fewer than `GroupSize` segments whose range is unset (empty group) or
overlaps `[startKey, endKey]`; with no match and fewer than `MaxGroups`
groups it appends and returns a fresh-id empty group (id drawn from the
group-id generator); otherwise it returns the last group. -/
theorem findOrCreateGroup_spec (conf : Config) (t : TreeState) (s e : List Nat) :
    (∀ l1 g l2, t.groups = l1 ++ g :: l2 →
        (∀ g' ∈ l1, ¬ groupMatchesP conf s e g') → groupMatchesP conf s e g →
        findOrCreateGroup conf t s e = (t, g)) ∧
    ((∀ g ∈ t.groups, ¬ groupMatchesP conf s e g) → t.groups.length < conf.MaxGroups →
        (findOrCreateGroup conf t s e).2.id = t.groupSeq + 1 ∧
        (findOrCreateGroup conf t s e).2.nodes = [] ∧
        (findOrCreateGroup conf t s e).1.groups =
          t.groups ++ [(findOrCreateGroup conf t s e).2] ∧
        (findOrCreateGroup conf t s e).1.groupSeq = t.groupSeq + 1) ∧
    ((∀ g ∈ t.groups, ¬ groupMatchesP conf s e g) → conf.MaxGroups ≤ t.groups.length →
        ∀ gl, t.groups.getLast? = some gl → findOrCreateGroup conf t s e = (t, gl)) := by
  refine ⟨?_, ?_, ?_⟩
  · intro l1 g l2 hsplit hnot hg
    simp only [findOrCreateGroup, hsplit, findMatchingGroup_first conf s e l1 g l2 hnot hg]
  · intro hnone hlen
    simp only [findOrCreateGroup, findMatchingGroup_none conf s e hnone]
    rw [if_pos hlen]
    exact ⟨rfl, rfl, rfl, rfl⟩
  · intro hnone hlen gl hgl
    simp only [findOrCreateGroup, findMatchingGroup_none conf s e hnone]
    rw [if_neg (by omega), hgl]

def treeW4 : TreeState :=
  ⟨emptyMem, [], walFileName confW2 0, [], [NewGroup 1], 0, 1, 0, []⟩

/-- Claim C7 witness: on a state holding one empty group, the search returns
that group (first-match case). -/
theorem findOrCreateGroup_spec_witness :
    findOrCreateGroup confW2 treeW4 [1] [2] = (treeW4, NewGroup 1) := by
  have h := (findOrCreateGroup_spec confW2 treeW4 [1] [2]).1
    [] (NewGroup 1) [] rfl (by intro g' hg'; simp at hg')
    (by exact ⟨by decide, by trivial⟩)
  exact h

/-! ## Flush and group compaction (src/unnamed/part_001) -/

def dKV : KV := ⟨[], []⟩

def sumBytes (kvs : List KV) : Nat :=
  (kvs.map (fun kv => kv.Key.length + kv.Value.length)).sum

/-- Modelled from the spec (§4.1): the SSTWriter source is not part of this
repository snapshot.  A segment produced by streaming `kvs` through the
writer and reopening it is modelled as a node whose reader returns exactly
those pairs, whose index spans `[first key, last key]` (the separator rule
makes the first index key the segment's first key and the last index key its
last key), and whose recorded size is the pairs' byte count. -/
def mkNodeFromKVs (gid seq : Nat) (kvs : List KV) : Node :=
  NewNode (sstFile gid seq) gid seq (sumBytes kvs) []
    [⟨(kvs.getD 0 dKV).Key, 0, 0⟩, ⟨(kvs.getD (kvs.length - 1) dKV).Key, 0, 0⟩]
    ⟨[], [], .ok kvs⟩

/-- Go mutates the chosen group in place through its pointer; the functional
model replaces the group with the matching id (group ids are unique in
reachable states). -/
def replaceGroupById (groups : List Group) (gid : Nat) (g' : Group) : List Group :=
  groups.map (fun h => if h.id = gid then g' else h)

/-- Embedding of `flushMemTable` at pair granularity: route the buffer's
key range through `findOrCreateGroup`, burn a fresh segment sequence number,
write the pairs into one new segment and add it to the group.  (The
compaction trigger `tryTriggerGroupCompact` only sends a signal; group
compaction itself is the separate `compactGroupStep` transition.) -/
def flushStep (conf : Config) (t : TreeState) (mem : MemTable) : TreeState :=
  let allKVs := memAll mem
  if allKVs = [] then t
  else
    let startKey := (allKVs.getD 0 dKV).Key
    let endKey := (allKVs.getD (allKVs.length - 1) dKV).Key
    let tg := findOrCreateGroup conf t startKey endKey
    let seq := tg.1.sstSeq + 1
    let node := mkNodeFromKVs tg.2.id seq allKVs
    let g' := AddNode tg.2 node
    { tg.1 with
      sstSeq := seq
      groups := replaceGroupById tg.1.groups tg.2.id g' }

/-- The chunking loop of `compactGroup`: roll to a new segment whenever the
accumulated (key+value) byte count would exceed the limit and the current
segment is nonempty. -/
def chunkGo (limit : Nat) : List KV → List KV → Nat → List (List KV)
  | [], cur, _ => if cur = [] then [] else [cur.reverse]
  | kv :: rest, cur, size =>
    if 0 < size ∧ limit < size + kv.Key.length + kv.Value.length then
      cur.reverse :: chunkGo limit rest [kv] (kv.Key.length + kv.Value.length)
    else
      chunkGo limit rest (kv :: cur) (size + kv.Key.length + kv.Value.length)

def chunkKVs (limit : Nat) (kvs : List KV) : List (List KV) := chunkGo limit kvs [] 0

/-- Embedding of `compactGroup`: locate the group by id, skip when it holds
at most one segment or the merge errors or is empty; otherwise merge via
`GetAllKVs`, split by `GroupSSTSize` into new segments (consecutive fresh
sequence numbers), then remove the old nodes and add the new ones
(`replaceGroupNodes`; the asynchronous destruction of replaced segment
files has no engine-state effect). -/
def compactGroupStep (conf : Config) (t : TreeState) (gid : Nat) : TreeState :=
  match t.groups.find? (fun g => g.id == gid) with
  | none => t
  | some g =>
    if g.nodes.length ≤ 1 then t
    else
      match GetAllKVs g with
      | .error _ => t
      | .ok allKVs =>
        if allKVs = [] then t
        else
          let chunks := chunkKVs conf.GroupSSTSize allKVs
          let newNodes := ((List.range chunks.length).zip chunks).map
            (fun p => mkNodeFromKVs gid (t.sstSeq + 1 + p.1) p.2)
          let gEmptied := g.nodes.foldl (fun acc n => (RemoveNode acc n).1) g
          let g' := newNodes.foldl AddNode gEmptied
          { t with
            sstSeq := t.sstSeq + chunks.length
            groups := replaceGroupById t.groups gid g' }

/-! ## Claim C8: the group-size cap -/

def confC8 : Config := ⟨"d".data, 1, 4, 1, 64, 32⟩

def treeC8 : TreeState := ⟨emptyMem, [], walFileName confC8 0, [], [], 0, 0, 0, []⟩

def memC8A : MemTable := ⟨[⟨[0], [0, 0, 0]⟩], 4⟩

def memC8B : MemTable := ⟨[⟨[9], [0, 0, 0]⟩], 4⟩

def dGroup : Group := ⟨0, [], none, none, 0⟩

/-- Claim C8 (counterexample): with `GroupSize = 1`, `MaxGroups = 1`,
`GroupSSTSize = 4`, flushing two disjoint 4-byte buffers from the empty
engine routes the second flush through the degraded fallback (every group
full, group list at `MaxGroups`) into the only group, and draining the
pending compaction still leaves that group with 2 segments (the merged 8
bytes split into two 4-byte segments) — a steady state whose group exceeds
`GroupSize`. -/
theorem groupCap_exceeded_at_steady_state :
    confC8.GroupSize = 1 ∧
      (compactGroupStep confC8
          (flushStep confC8 (flushStep confC8 treeC8 memC8A) memC8B) 1).groups.length = 1 ∧
      ((compactGroupStep confC8
          (flushStep confC8 (flushStep confC8 treeC8 memC8A) memC8B) 1).groups.getD 0
        dGroup).nodes.length = 2 := by
  exact ⟨rfl, by decide, by decide⟩

theorem length_insertByStart (n : Node) :
    ∀ l : List Node, (insertByStart n l).length = l.length + 1 := by
  intro l
  induction l with
  | nil => rfl
  | cons m ms ih =>
    simp only [insertByStart]
    by_cases h : bytesCompare n.startKey m.startKey < 0
    · rw [if_pos h]; rfl
    · rw [if_neg h]
      simp only [List.length_cons, ih]

theorem length_sortNodes (l : List Node) : (sortNodes l).length = l.length := by
  induction l with
  | nil => rfl
  | cons m ms ih =>
    show (insertByStart m (sortNodes ms)).length = ms.length + 1
    rw [length_insertByStart, ih]

theorem addNode_length (g : Group) (node : Node) :
    (AddNode g node).nodes.length = g.nodes.length + 1 := by
  show (sortNodes (g.nodes ++ [node])).length = g.nodes.length + 1
  rw [length_sortNodes, List.length_append, List.length_cons, List.length_nil]

theorem findMatchingGroup_some {conf : Config} {s e : List Nat} :
    ∀ {l : List Group} {g : Group}, findMatchingGroup conf s e l = some g →
      groupMatches conf s e g = true := by
  intro l
  induction l with
  | nil => intro g h; exact absurd h (by simp [findMatchingGroup])
  | cons m ms ih =>
    intro g h
    simp only [findMatchingGroup] at h
    by_cases hm : groupMatches conf s e m = true
    · rw [if_pos hm] at h
      injection h with h
      rw [← h]
      exact hm
    · rw [if_neg hm] at h
      exact ih h

/-- Claim C8 (amended): the flush routing preserves the cap exactly as long
as the degraded fallback is not taken: if some group matches the search
predicate, or the group list is still below `MaxGroups`, then adding the
flushed segment to the group `findOrCreateGroup` returns leaves that group
with at most `GroupSize` segments.  In degraded mode (no match and the list
at `MaxGroups`) the cap can be exceeded, and the excess can survive the
draining of all pending compactions whenever the merged bytes exceed
`GroupSize * GroupSSTSize`. -/
theorem flush_route_preserves_cap (conf : Config) (t : TreeState) (s e : List Nat)
    (node : Node) (hGS : 1 ≤ conf.GroupSize)
    (hnotdeg : (findMatchingGroup conf s e t.groups).isSome ∨
      t.groups.length < conf.MaxGroups) :
    (AddNode (findOrCreateGroup conf t s e).2 node).nodes.length ≤ conf.GroupSize := by
  rw [addNode_length]
  cases hf : findMatchingGroup conf s e t.groups with
  | some g =>
    have hm := findMatchingGroup_some hf
    have hlt : g.nodes.length < conf.GroupSize := by
      simp only [groupMatches, Bool.and_eq_true, decide_eq_true_eq] at hm
      exact hm.1
    simp only [findOrCreateGroup, hf]
    omega
  | none =>
    have hlen : t.groups.length < conf.MaxGroups := by
      rcases hnotdeg with hd | hd
      · rw [hf] at hd; simp at hd
      · exact hd
    simp only [findOrCreateGroup, hf]
    rw [if_pos hlen]
    show (NewGroup (t.groupSeq + 1)).nodes.length + 1 ≤ conf.GroupSize
    simp only [NewGroup, List.length_nil]
    omega

def confC8w : Config := ⟨"d".data, 2, 4, 5, 64, 32⟩

/-- Claim C8 witness: the amended statement on a concrete empty engine with
room for a fresh group. -/
theorem flush_route_preserves_cap_witness :
    (AddNode (findOrCreateGroup confC8w treeC8 [1] [2]).2 segA).nodes.length ≤
      confC8w.GroupSize :=
  flush_route_preserves_cap confC8w treeC8 [1] [2] segA (by decide) (Or.inr (by decide))

end Lsmart
